import Mathlib

set_option maxRecDepth 40000

/-!
Shallow embedding of the RC5 core (`src/core/mod.rs`, `src/core/consts.rs`).

Machine words of `w` bits are embedded as `Nat` together with an explicit
modulus `2 ^ w`; the word byte count `u` satisfies `w = 8 * u`.  The generic
Rust functions `encrypt_block`, `decrypt_block`, `words_from_block`,
`block_from_words`, `substitute_key`, `key_into_words`,
`initialize_expanded_key_table` (here `init_expanded_key_table`) and `mix_in`
are translated as executable Lean functions over `List Nat` (bytes are `Nat`
values below 256, words are `Nat` values below `2 ^ w`).  Array indexing is
translated as `List.getD _ _ 0` / `List.set`; in addition Option-valued
variants (`encrypt_block?`, `decrypt_block?`, `key_into_words?`, `mix_in?`)
model the panicking array indexing, the overflow check on plain `+`, and `%`
by zero: they return `none` exactly where the Rust code would panic.
-/

namespace RC5

/-- Wrapping (twos-complement) addition of `w`-bit words:
`u32::wrapping_add` and friends. -/
def wrappingAdd (w x y : Nat) : Nat := (x + y) % 2 ^ w

/-- Wrapping subtraction of `w`-bit words (`u32::wrapping_sub`),
expressed over `Nat` by adding the complement of `y`. -/
def wrappingSub (w x y : Nat) : Nat := (x + (2 ^ w - y % 2 ^ w)) % 2 ^ w

/-- Modelled from the spec: the `Word` trait implementation used by the
source (its file is not under `src/`; for the concrete `Word = u32` it is
`u32::rotate_left`).  Left rotation of a `w`-bit word, the rotation amount
reduced modulo `w` first (spec section 4.1). -/
def rotateLeft (w x n : Nat) : Nat :=
  (x * 2 ^ (n % w)) % 2 ^ w + x / 2 ^ (w - n % w)

/-- Modelled from the spec: right rotation of a `w`-bit word with the
amount reduced modulo `w` first (`u32::rotate_right` for `Word = u32`). -/
def rotateRight (w x n : Nat) : Nat :=
  x / 2 ^ (n % w) + (x % 2 ^ (n % w)) * 2 ^ (w - n % w)

/-- Translation of `<W as Word>::from_le_bytes`: little-endian decoding of a byte list. -/
def fromLEBytes : List Nat → Nat
  | [] => 0
  | byte :: rest => byte + 256 * fromLEBytes rest

/-- Translation of `<W as Word>::to_le_bytes`: little-endian encoding of a word into `u`
bytes. -/
def toLEBytes : Nat → Nat → List Nat
  | 0, _ => []
  | u + 1, x => x % 256 :: toLEBytes u (x / 256)

/-- Translation of `words_from_block` (`src/core/mod.rs`): split a `2u`-byte block into the
two little-endian words `(a, b)`. -/
def words_from_block (u : Nat) (block : List Nat) : Nat × Nat :=
  (fromLEBytes (block.take u), fromLEBytes (block.drop u))

/-- Translation of `block_from_words` (`src/core/mod.rs`): serialize `(a, b)` back into a
`2u`-byte little-endian block. -/
def block_from_words (u a b : Nat) : List Nat :=
  toLEBytes u a ++ toLEBytes u b

/-- One iteration of the encryption round loop of `encrypt_block`
(`src/core/mod.rs` lines 62-65), with the two round words `s1 = key[2i]`
and `s2 = key[2i+1]` already looked up. -/
def encRound (w s1 s2 : Nat) (ab : Nat × Nat) : Nat × Nat :=
  let a := wrappingAdd w (rotateLeft w (ab.1 ^^^ ab.2) ab.2) s1
  let b := wrappingAdd w (rotateLeft w (ab.2 ^^^ a) a) s2
  (a, b)

/-- One iteration of the decryption round loop of `decrypt_block`
(`src/core/mod.rs` lines 87-90). -/
def decRound (w s1 s2 : Nat) (ab : Nat × Nat) : Nat × Nat :=
  let b := rotateRight w (wrappingSub w ab.2 s2) ab.1 ^^^ ab.1
  let a := rotateRight w (wrappingSub w ab.1 s1) b ^^^ b
  (a, b)

/-- The word-level part of `encrypt_block`: whitening with `key[0]`,
`key[1]`, then the round loop `for i in 1..=r`. -/
def encrypt_words (w r : Nat) (key : List Nat) (ab : Nat × Nat) : Nat × Nat :=
  let a := wrappingAdd w ab.1 (key.getD 0 0)
  let b := wrappingAdd w ab.2 (key.getD 1 0)
  (List.range' 1 r).foldl
    (fun ab i => encRound w (key.getD (2 * i) 0) (key.getD (2 * i + 1) 0) ab)
    (a, b)

/-- The word-level part of `decrypt_block`: the round loop
`for i in (1..=r).rev()`, then the whitening subtractions. -/
def decrypt_words (w r : Nat) (key : List Nat) (ab : Nat × Nat) : Nat × Nat :=
  let ab :=
    (List.range' 1 r).reverse.foldl
      (fun ab i => decRound w (key.getD (2 * i) 0) (key.getD (2 * i + 1) 0) ab)
      ab
  (wrappingSub w ab.1 (key.getD 0 0), wrappingSub w ab.2 (key.getD 1 0))

/-- Translation of `encrypt_block` (`src/core/mod.rs` lines 44-68) for word size `w = 8u`
bits and `r` rounds. -/
def encrypt_block (u r : Nat) (block key : List Nat) : List Nat :=
  let ab := words_from_block u block
  let ab' := encrypt_words (8 * u) r key ab
  block_from_words u ab'.1 ab'.2

/-- Translation of `decrypt_block` (`src/core/mod.rs` lines 70-94). -/
def decrypt_block (u r : Nat) (block key : List Nat) : List Nat :=
  let ab := words_from_block u block
  let ab' := decrypt_words (8 * u) r key ab
  block_from_words u ab'.1 ab'.2

/-- Translation of `key_as_words::SIZE` (`src/core/consts.rs` lines 67-73):
`c = (b + u - 1) / u` for key length `b` and word byte-count `u`. -/
def key_as_words_size (u b : Nat) : Nat := (b + u - 1) / u

/-- Translation of `key_into_words` (`src/core/mod.rs` lines 146-169): pack the key bytes
into `key_as_words_size u key.length` words, iterating `i` from `b - 1`
down to `0` with `L[i/u] = L[i/u].rotate_left(8) + key[i]` (plain,
non-wrapping `+`). -/
def key_into_words (u : Nat) (key : List Nat) : List Nat :=
  (List.range key.length).reverse.foldl
    (fun L i =>
      L.set (i / u) (rotateLeft (8 * u) (L.getD (i / u) 0) 8 + key.getD i 0))
    (List.replicate (key_as_words_size u key.length) 0)

/-- Translation of `word::p()` (`src/core/consts.rs` lines 25-34).  The final `panic` arm
is unreachable for the statically asserted widths 16/32/64 and is modelled
as `0`. -/
def pConst (w : Nat) : Nat :=
  if w = 16 then 0xb7e1
  else if w = 32 then 0xb7e15163
  else if w = 64 then 0xb7e151628aed2a6b
  else 0

/-- Translation of `word::q()` (`src/core/consts.rs` lines 36-45), analogous to `pConst`. -/
def qConst (w : Nat) : Nat :=
  if w = 16 then 0x9e37
  else if w = 32 then 0x9e3779b9
  else if w = 64 then 0x9e3779b97f4a7c15
  else 0

/-- Translation of `initialize_expanded_key_table` (`src/core/mod.rs` lines 171-188):
a zero table of `t` words, then `S[0] = P` and
`for i in 1..t { S[i] = S[i-1].wrapping_add(Q) }`. -/
def init_expanded_key_table (w t : Nat) : List Nat :=
  (List.range' 1 (t - 1)).foldl
    (fun tbl i => tbl.set i (wrappingAdd w (tbl.getD (i - 1) 0) (qConst w)))
    ((List.replicate t 0).set 0 (pConst w))

/-- The mutable state of the `mix_in` loop (`src/core/mod.rs` lines
204-225): the two arrays, the two cursors and the two accumulators. -/
structure MixState where
  keyTable : List Nat
  keyWords : List Nat
  si : Nat
  li : Nat
  a : Nat
  b : Nat
  deriving Repr, DecidableEq

/-- One iteration of the `mix_in` loop body. -/
def mixStep (w : Nat) (st : MixState) : MixState :=
  let s := rotateLeft w (wrappingAdd w (wrappingAdd w (st.keyTable.getD st.si 0) st.a) st.b) 3
  let keyTable := st.keyTable.set st.si s
  let l := rotateLeft w (wrappingAdd w (wrappingAdd w (st.keyWords.getD st.li 0) s) st.b)
      (wrappingAdd w s st.b)
  let keyWords := st.keyWords.set st.li l
  ⟨keyTable, keyWords, (st.si + 1) % keyTable.length, (st.li + 1) % keyWords.length, s, l⟩

/-- Translation of `mix_in` (`src/core/mod.rs` lines 190-228): starting from cursors `0`
and accumulators `0`, run the loop body `3 * max(L.len(), S.len())` times
and return the key table. -/
def mix_in (w : Nat) (keyTable keyWords : List Nat) : List Nat :=
  ((List.range (3 * max keyWords.length keyTable.length)).foldl
    (fun st _ => mixStep w st) ⟨keyTable, keyWords, 0, 0, 0, 0⟩).keyTable

/-- Translation of `substitute_key` (`src/core/mod.rs` lines 125-144): expanded key table
for word size `8u` bits, `r` rounds (`t = 2(r+1)`), from a `key.length`-byte
key. -/
def substitute_key (u r : Nat) (key : List Nat) : List Nat :=
  mix_in (8 * u) (init_expanded_key_table (8 * u) (2 * (r + 1)))
    (key_into_words u key)

/-- Option model of the word-level part of `encrypt_block`: every table
lookup `key[_]` is a `List.getElem?`, so the result is `none` exactly when
the Rust indexing would panic. -/
def encrypt_words? (w r : Nat) (key : List Nat) (ab : Nat × Nat) :
    Option (Nat × Nat) := do
  let k0 ← key[0]?
  let k1 ← key[1]?
  (List.range' 1 r).foldlM
    (fun ab i => do
      let s1 ← key[2 * i]?
      let s2 ← key[2 * i + 1]?
      pure (encRound w s1 s2 ab))
    (wrappingAdd w ab.1 k0, wrappingAdd w ab.2 k1)

/-- Option model of the word-level part of `decrypt_block`. -/
def decrypt_words? (w r : Nat) (key : List Nat) (ab : Nat × Nat) :
    Option (Nat × Nat) := do
  let ab ←
    (List.range' 1 r).reverse.foldlM
      (fun ab i => do
        let s1 ← key[2 * i]?
        let s2 ← key[2 * i + 1]?
        pure (decRound w s1 s2 ab))
      ab
  let k1 ← key[1]?
  let k0 ← key[0]?
  pure (wrappingSub w ab.1 k0, wrappingSub w ab.2 k1)

/-- Option model of `encrypt_block` (panicking table indexing made
explicit). -/
def encrypt_block? (u r : Nat) (block key : List Nat) : Option (List Nat) := do
  let ab := words_from_block u block
  let ab' ← encrypt_words? (8 * u) r key ab
  pure (block_from_words u ab'.1 ab'.2)

/-- Option model of `decrypt_block`. -/
def decrypt_block? (u r : Nat) (block key : List Nat) : Option (List Nat) := do
  let ab := words_from_block u block
  let ab' ← decrypt_words? (8 * u) r key ab
  pure (block_from_words u ab'.1 ab'.2)

/-- Option model of `key_into_words`: the array accesses are checked, and
the plain (non-wrapping) `+` of the source is guarded by the overflow check
of the word type, so the result is `none` exactly when the Rust code would
panic. -/
def key_into_words? (u : Nat) (key : List Nat) : Option (List Nat) :=
  (List.range key.length).reverse.foldlM
    (fun L i => do
      let cur ← L[i / u]?
      let byte ← key[i]?
      let v := rotateLeft (8 * u) cur 8 + byte
      if v < 2 ^ (8 * u) then pure (L.set (i / u) v) else none)
    (List.replicate (key_as_words_size u key.length) 0)

/-- Option model of the `mix_in` loop body: the two array reads are
checked, and the final cursor updates `(si + 1) % t` and `(li + 1) % c` are
guarded against `%` by zero, matching the panics of the Rust code. -/
def mixStep? (w : Nat) (st : MixState) : Option MixState := do
  let s0 ← st.keyTable[st.si]?
  let s := rotateLeft w (wrappingAdd w (wrappingAdd w s0 st.a) st.b) 3
  let keyTable := st.keyTable.set st.si s
  let l0 ← st.keyWords[st.li]?
  let l := rotateLeft w (wrappingAdd w (wrappingAdd w l0 s) st.b) (wrappingAdd w s st.b)
  let keyWords := st.keyWords.set st.li l
  if keyTable.length = 0 ∨ keyWords.length = 0 then none
  else pure ⟨keyTable, keyWords, (st.si + 1) % keyTable.length,
    (st.li + 1) % keyWords.length, s, l⟩

/-- Option model of `mix_in`. -/
def mix_in? (w : Nat) (keyTable keyWords : List Nat) : Option (List Nat) :=
  ((List.range (3 * max keyWords.length keyTable.length)).foldlM
    (fun st _ => mixStep? w st)
    (⟨keyTable, keyWords, 0, 0, 0, 0⟩ : MixState)).map
    (fun st => st.keyTable)

/-- Written from the words of claim C3: the round loop of encryption as a
recursion on the round counter; iteration `i + 1` computes
`A = rotate_left(A xor B, B) + S[2(i+1)]` and then
`B = rotate_left(B xor A, A) + S[2(i+1)+1]`, additions wrapping and the
wrapping add applied after the data-dependent rotate. -/
def encSpecRounds (w : Nat) (S : List Nat) (AB : Nat × Nat) : Nat → Nat × Nat
  | 0 => AB
  | i + 1 =>
    let AB' := encSpecRounds w S AB i
    let A := wrappingAdd w (rotateLeft w (AB'.1 ^^^ AB'.2) AB'.2) (S.getD (2 * (i + 1)) 0)
    let B := wrappingAdd w (rotateLeft w (AB'.2 ^^^ A) A) (S.getD (2 * (i + 1) + 1) 0)
    (A, B)

/-- Written from the words of claim C3: decode `A` from bytes `[0, u)` and
`B` from bytes `[u, 2u)` little-endian, whiten with `S[0]` and `S[1]`
(wrapping), run the rounds `1..=r`, and re-encode `(A, B)` little-endian. -/
def encryptSpec (u r : Nat) (block S : List Nat) : List Nat :=
  let w := 8 * u
  let A := fromLEBytes (block.take u)
  let B := fromLEBytes ((block.drop u).take u)
  let AB := encSpecRounds w S
    (wrappingAdd w A (S.getD 0 0), wrappingAdd w B (S.getD 1 0)) r
  toLEBytes u AB.1 ++ toLEBytes u AB.2

/-- Written from the words of claim C5: one mixing iteration.  First
`S[si] = rotate_left(S[si] + A + B, 3)` and `A` is set to it, then
`L[li] = rotate_left(L[li] + A + B, (A + B) mod w)` and `B` is set to it,
then `si` advances by one modulo `t` and `li` by one modulo `c`.  All word
additions are wrapping. -/
def mixSpecStep (w t c : Nat) (st : MixState) : MixState :=
  let sNew := rotateLeft w
    (wrappingAdd w (wrappingAdd w (st.keyTable.getD st.si 0) st.a) st.b) 3
  let S := st.keyTable.set st.si sNew
  let A := sNew
  let lNew := rotateLeft w
    (wrappingAdd w (wrappingAdd w (st.keyWords.getD st.li 0) A) st.b)
    (wrappingAdd w A st.b % w)
  let L := st.keyWords.set st.li lNew
  let B := lNew
  ⟨S, L, (st.si + 1) % t, (st.li + 1) % c, A, B⟩

/-- Iterate `mixSpecStep` a given number of times. -/
def mixSpecIter (w t c : Nat) : Nat → MixState → MixState
  | 0, st => st
  | n + 1, st => mixSpecIter w t c n (mixSpecStep w t c st)

/-- Written from the words of claim C5: the mixing phase starts with
`A = 0`, `B = 0`, both cursors at `0`, and runs exactly `3 * max(t, c)`
iterations of `mixSpecStep`. -/
def mixSpec (w : Nat) (keyTable keyWords : List Nat) : List Nat :=
  (mixSpecIter w keyTable.length keyWords.length
    (3 * max keyTable.length keyWords.length)
    ⟨keyTable, keyWords, 0, 0, 0, 0⟩).keyTable


/-- Auxiliary state description for the analysis of `key_into_words`: after
the loop has processed the byte indices `≥ k`, word `j` holds the
little-endian value of the key bytes with indices in
`[max k (j*u), min b (j*u + u))`. -/
def packedWords (u k : Nat) (key : List Nat) : List Nat :=
  (List.range (key_as_words_size u key.length)).map
    (fun j => fromLEBytes ((key.drop (max k (j * u))).take
      (min key.length (j * u + u) - max k (j * u))))

theorem two_pow_pos (w : Nat) : 0 < 2 ^ w := Nat.pos_pow_of_pos w (by norm_num)

theorem wrappingAdd_lt (w x y : Nat) : wrappingAdd w x y < 2 ^ w :=
  Nat.mod_lt _ (two_pow_pos w)

theorem wrappingSub_lt (w x y : Nat) : wrappingSub w x y < 2 ^ w :=
  Nat.mod_lt _ (two_pow_pos w)

theorem wrappingSub_wrappingAdd (w x s : Nat) (hx : x < 2 ^ w) :
    wrappingSub w (wrappingAdd w x s) s = x := by
  have hM : 0 < 2 ^ w := two_pow_pos w
  have h1 : s % 2 ^ w < 2 ^ w := Nat.mod_lt _ hM
  unfold wrappingSub wrappingAdd
  rw [Nat.mod_add_mod]
  have h3 : s - s % 2 ^ w = 2 ^ w * (s / 2 ^ w) := by
    have := Nat.mod_add_div s (2 ^ w); omega
  have h2 : x + s + (2 ^ w - s % 2 ^ w) = x + 2 ^ w * (s / 2 ^ w) + 2 ^ w := by
    have hle : s % 2 ^ w ≤ s := Nat.mod_le s _
    omega
  rw [h2, Nat.add_mod_right, Nat.add_mul_mod_self_left, Nat.mod_eq_of_lt hx]

theorem rotateLeft_mod (w x n : Nat) : rotateLeft w x (n % w) = rotateLeft w x n := by
  unfold rotateLeft
  rw [Nat.mod_mod_of_dvd n (dvd_refl w)]

theorem rotateRight_mod (w x n : Nat) : rotateRight w x (n % w) = rotateRight w x n := by
  unfold rotateRight
  rw [Nat.mod_mod_of_dvd n (dvd_refl w)]

theorem pow_split (w m : Nat) (h : m < w) : 2 ^ (w - m) * 2 ^ m = 2 ^ w := by
  rw [← pow_add]; congr 1; omega

theorem rotateLeft_lt (w x n : Nat) (hw : 0 < w) (hx : x < 2 ^ w) :
    rotateLeft w x n < 2 ^ w := by
  unfold rotateLeft
  have hmw : n % w < w := Nat.mod_lt _ hw
  set m := n % w with hm
  have hsplit : 2 ^ (w - m) * 2 ^ m = 2 ^ w := pow_split w m hmw
  have h1 : x * 2 ^ m % 2 ^ w = x % 2 ^ (w - m) * 2 ^ m := by
    rw [← hsplit, Nat.mul_mod_mul_right]
  rw [h1]
  have hlo : x % 2 ^ (w - m) < 2 ^ (w - m) := Nat.mod_lt _ (two_pow_pos _)
  have hhi : x / 2 ^ (w - m) < 2 ^ m := by
    rw [Nat.div_lt_iff_lt_mul (two_pow_pos _)]
    calc x < 2 ^ w := hx
    _ = 2 ^ m * 2 ^ (w - m) := by rw [mul_comm, hsplit]
  calc x % 2 ^ (w - m) * 2 ^ m + x / 2 ^ (w - m)
      < x % 2 ^ (w - m) * 2 ^ m + 2 ^ m := Nat.add_lt_add_left hhi _
    _ = (x % 2 ^ (w - m) + 1) * 2 ^ m := by ring
    _ ≤ 2 ^ (w - m) * 2 ^ m := Nat.mul_le_mul_right _ (Nat.succ_le_of_lt hlo)
    _ = 2 ^ w := hsplit

theorem rotateRight_lt (w x n : Nat) (hw : 0 < w) (hx : x < 2 ^ w) :
    rotateRight w x n < 2 ^ w := by
  unfold rotateRight
  have hmw : n % w < w := Nat.mod_lt _ hw
  set m := n % w with hm
  have hsplit : 2 ^ (w - m) * 2 ^ m = 2 ^ w := pow_split w m hmw
  have hlo : x % 2 ^ m < 2 ^ m := Nat.mod_lt _ (two_pow_pos _)
  have hhi : x / 2 ^ m < 2 ^ (w - m) := by
    rw [Nat.div_lt_iff_lt_mul (two_pow_pos _)]
    calc x < 2 ^ w := hx
    _ = 2 ^ (w - m) * 2 ^ m := hsplit.symm
  calc x / 2 ^ m + x % 2 ^ m * 2 ^ (w - m)
      < 2 ^ (w - m) + x % 2 ^ m * 2 ^ (w - m) := Nat.add_lt_add_right hhi _
    _ = (x % 2 ^ m + 1) * 2 ^ (w - m) := by ring
    _ ≤ 2 ^ m * 2 ^ (w - m) := Nat.mul_le_mul_right _ (Nat.succ_le_of_lt hlo)
    _ = 2 ^ w := by rw [mul_comm, hsplit]

theorem rotateRight_rotateLeft (w x n : Nat) (hw : 0 < w) (hx : x < 2 ^ w) :
    rotateRight w (rotateLeft w x n) n = x := by
  unfold rotateLeft rotateRight
  have hmw : n % w < w := Nat.mod_lt _ hw
  set m := n % w with hm
  have hsplit : 2 ^ (w - m) * 2 ^ m = 2 ^ w := pow_split w m hmw
  have h1 : x * 2 ^ m % 2 ^ w = x % 2 ^ (w - m) * 2 ^ m := by
    rw [← hsplit, Nat.mul_mod_mul_right]
  have hhi : x / 2 ^ (w - m) < 2 ^ m := by
    rw [Nat.div_lt_iff_lt_mul (two_pow_pos _)]
    calc x < 2 ^ w := hx
    _ = 2 ^ m * 2 ^ (w - m) := by rw [mul_comm, hsplit]
  rw [h1]
  have hdiv : (x % 2 ^ (w - m) * 2 ^ m + x / 2 ^ (w - m)) / 2 ^ m = x % 2 ^ (w - m) := by
    rw [mul_comm (x % 2 ^ (w - m))]
    rw [Nat.mul_add_div (two_pow_pos m)]
    rw [Nat.div_eq_of_lt hhi, Nat.add_zero]
  have hmod : (x % 2 ^ (w - m) * 2 ^ m + x / 2 ^ (w - m)) % 2 ^ m = x / 2 ^ (w - m) := by
    rw [mul_comm (x % 2 ^ (w - m))]
    rw [Nat.mul_add_mod]
    exact Nat.mod_eq_of_lt hhi
  rw [hdiv, hmod, Nat.mod_add_div']



theorem encRound_fst_lt (w s1 s2 : Nat) (ab : Nat × Nat) :
    (encRound w s1 s2 ab).1 < 2 ^ w := wrappingAdd_lt w _ _

theorem encRound_snd_lt (w s1 s2 : Nat) (ab : Nat × Nat) :
    (encRound w s1 s2 ab).2 < 2 ^ w := wrappingAdd_lt w _ _

theorem unround (w x s n : Nat) (hw : 0 < w) (hx : x < 2 ^ w) :
    rotateRight w (wrappingSub w (wrappingAdd w (rotateLeft w x n) s) s) n = x := by
  rw [wrappingSub_wrappingAdd w _ s (rotateLeft_lt w x n hw hx)]
  exact rotateRight_rotateLeft w x n hw hx

theorem decRound_encRound (w s1 s2 : Nat) (ab : Nat × Nat) (hw : 0 < w)
    (ha : ab.1 < 2 ^ w) (hb : ab.2 < 2 ^ w) :
    decRound w s1 s2 (encRound w s1 s2 ab) = ab := by
  obtain ⟨a, b⟩ := ab
  simp only at ha hb
  unfold encRound decRound
  simp only
  have hA : wrappingAdd w (rotateLeft w (a ^^^ b) b) s1 < 2 ^ w := wrappingAdd_lt w _ _
  set a' := wrappingAdd w (rotateLeft w (a ^^^ b) b) s1 with ha'
  have hxba : b ^^^ a' < 2 ^ w := Nat.xor_lt_two_pow hb hA
  have hB : rotateRight w
      (wrappingSub w (wrappingAdd w (rotateLeft w (b ^^^ a') a') s2) s2) a' ^^^ a' = b := by
    rw [unround w (b ^^^ a') s2 a' hw hxba, Nat.xor_cancel_right]
  rw [hB]
  have hxab : a ^^^ b < 2 ^ w := Nat.xor_lt_two_pow ha hb
  rw [ha', unround w (a ^^^ b) s1 b hw hxab, Nat.xor_cancel_right]

theorem foldl_dec_foldl_enc (w : Nat) (key : List Nat) (hw : 0 < w) :
    ∀ (l : List Nat) (ab : Nat × Nat), ab.1 < 2 ^ w → ab.2 < 2 ^ w →
      l.reverse.foldl
        (fun ab i => decRound w (key.getD (2 * i) 0) (key.getD (2 * i + 1) 0) ab)
        (l.foldl
          (fun ab i => encRound w (key.getD (2 * i) 0) (key.getD (2 * i + 1) 0) ab)
          ab) = ab := by
  intro l
  induction l with
  | nil => intro ab _ _; rfl
  | cons x l ih =>
    intro ab ha hb
    rw [List.reverse_cons, List.foldl_cons, List.foldl_append]
    rw [ih (encRound w (key.getD (2 * x) 0) (key.getD (2 * x + 1) 0) ab)
      (encRound_fst_lt w _ _ ab) (encRound_snd_lt w _ _ ab)]
    simp only [List.foldl_cons, List.foldl_nil]
    exact decRound_encRound w _ _ ab hw ha hb

theorem decrypt_words_encrypt_words (w r : Nat) (key : List Nat) (ab : Nat × Nat)
    (hw : 0 < w) (ha : ab.1 < 2 ^ w) (hb : ab.2 < 2 ^ w) :
    decrypt_words w r key (encrypt_words w r key ab) = ab := by
  unfold encrypt_words decrypt_words
  simp only
  rw [foldl_dec_foldl_enc w key hw (List.range' 1 r)
    (wrappingAdd w ab.1 (key.getD 0 0), wrappingAdd w ab.2 (key.getD 1 0))
    (wrappingAdd_lt w _ _) (wrappingAdd_lt w _ _)]
  simp only
  rw [wrappingSub_wrappingAdd w ab.1 _ ha, wrappingSub_wrappingAdd w ab.2 _ hb]

theorem foldl_enc_lt (w : Nat) (key : List Nat) :
    ∀ (l : List Nat) (ab : Nat × Nat), ab.1 < 2 ^ w → ab.2 < 2 ^ w →
      (l.foldl
        (fun ab i => encRound w (key.getD (2 * i) 0) (key.getD (2 * i + 1) 0) ab)
        ab).1 < 2 ^ w ∧
      (l.foldl
        (fun ab i => encRound w (key.getD (2 * i) 0) (key.getD (2 * i + 1) 0) ab)
        ab).2 < 2 ^ w := by
  intro l
  induction l with
  | nil => exact fun ab ha hb => ⟨ha, hb⟩
  | cons x l ih =>
    intro ab ha hb
    rw [List.foldl_cons]
    exact ih _ (encRound_fst_lt w _ _ ab) (encRound_snd_lt w _ _ ab)

theorem encrypt_words_fst_lt (w r : Nat) (key : List Nat) (ab : Nat × Nat) :
    (encrypt_words w r key ab).1 < 2 ^ w := by
  unfold encrypt_words
  exact (foldl_enc_lt w key (List.range' 1 r) _
    (wrappingAdd_lt w _ _) (wrappingAdd_lt w _ _)).1

theorem encrypt_words_snd_lt (w r : Nat) (key : List Nat) (ab : Nat × Nat) :
    (encrypt_words w r key ab).2 < 2 ^ w := by
  unfold encrypt_words
  exact (foldl_enc_lt w key (List.range' 1 r) _
    (wrappingAdd_lt w _ _) (wrappingAdd_lt w _ _)).2



theorem fromLEBytes_lt : ∀ (bs : List Nat), (∀ a ∈ bs, a < 256) →
    fromLEBytes bs < 2 ^ (8 * bs.length) := by
  intro bs
  induction bs with
  | nil => intro _; simp [fromLEBytes]
  | cons byte rest ih =>
    intro h
    have hb : byte < 256 := h byte (List.mem_cons_self _ _)
    have hr : fromLEBytes rest < 2 ^ (8 * rest.length) :=
      ih (fun a ha => h a (List.mem_cons_of_mem _ ha))
    show byte + 256 * fromLEBytes rest < 2 ^ (8 * (rest.length + 1))
    have hpow : 2 ^ (8 * (rest.length + 1)) = 2 ^ (8 * rest.length) * 256 := by
      rw [Nat.mul_add, pow_add]; norm_num
    calc byte + 256 * fromLEBytes rest
        < 256 + 256 * fromLEBytes rest := by omega
      _ = 256 * (fromLEBytes rest + 1) := by ring
      _ ≤ 256 * 2 ^ (8 * rest.length) := by
          exact Nat.mul_le_mul_left _ (Nat.succ_le_of_lt hr)
      _ = 2 ^ (8 * (rest.length + 1)) := by rw [hpow, mul_comm]

theorem toLEBytes_fromLEBytes : ∀ (bs : List Nat), (∀ a ∈ bs, a < 256) →
    toLEBytes bs.length (fromLEBytes bs) = bs := by
  intro bs
  induction bs with
  | nil => intro _; rfl
  | cons byte rest ih =>
    intro h
    have hb : byte < 256 := h byte (List.mem_cons_self _ _)
    show toLEBytes (rest.length + 1) (byte + 256 * fromLEBytes rest) = byte :: rest
    show (byte + 256 * fromLEBytes rest) % 256 ::
      toLEBytes rest.length ((byte + 256 * fromLEBytes rest) / 256) = byte :: rest
    have hmod : (byte + 256 * fromLEBytes rest) % 256 = byte := by
      rw [Nat.add_mul_mod_self_left, Nat.mod_eq_of_lt hb]
    have hdiv : (byte + 256 * fromLEBytes rest) / 256 = fromLEBytes rest := by
      rw [Nat.add_mul_div_left _ _ (by norm_num : (0:Nat) < 256),
        Nat.div_eq_of_lt hb, Nat.zero_add]
    rw [hmod, hdiv, ih (fun a ha => h a (List.mem_cons_of_mem _ ha))]

theorem fromLEBytes_toLEBytes : ∀ (u x : Nat), x < 2 ^ (8 * u) →
    fromLEBytes (toLEBytes u x) = x := by
  intro u
  induction u with
  | zero => intro x hx; interval_cases x; rfl
  | succ u ih =>
    intro x hx
    show fromLEBytes (x % 256 :: toLEBytes u (x / 256)) = x
    show x % 256 + 256 * fromLEBytes (toLEBytes u (x / 256)) = x
    have hdiv : x / 256 < 2 ^ (8 * u) := by
      rw [Nat.div_lt_iff_lt_mul (by norm_num : (0:Nat) < 256)]
      calc x < 2 ^ (8 * (u + 1)) := hx
        _ = 2 ^ (8 * u) * 256 := by rw [Nat.mul_add, pow_add]; norm_num
    rw [ih (x / 256) hdiv]
    exact Nat.mod_add_div x 256

theorem toLEBytes_length : ∀ (u x : Nat), (toLEBytes u x).length = u := by
  intro u
  induction u with
  | zero => intro x; rfl
  | succ u ih => intro x; show (toLEBytes u (x / 256)).length + 1 = u + 1; rw [ih]

theorem toLEBytes_mem_lt : ∀ (u x : Nat), ∀ a ∈ toLEBytes u x, a < 256 := by
  intro u
  induction u with
  | zero => intro x a ha; cases ha
  | succ u ih =>
    intro x a ha
    rcases List.mem_cons.mp ha with h | h
    · rw [h]; exact Nat.mod_lt _ (by norm_num)
    · exact ih (x / 256) a h

theorem words_from_block_block_from_words (u a b : Nat)
    (ha : a < 2 ^ (8 * u)) (hb : b < 2 ^ (8 * u)) :
    words_from_block u (block_from_words u a b) = (a, b) := by
  unfold words_from_block block_from_words
  rw [List.take_left' (toLEBytes_length u a), List.drop_left' (toLEBytes_length u a)]
  rw [fromLEBytes_toLEBytes u a ha, fromLEBytes_toLEBytes u b hb]

theorem decrypt_block_encrypt_block (u r : Nat) (block key : List Nat)
    (hu : 0 < u) (hlen : block.length = 2 * u) (hbytes : ∀ a ∈ block, a < 256) :
    decrypt_block u r (encrypt_block u r block key) key = block := by
  have htl : (block.take u).length = u := by rw [List.length_take, hlen]; omega
  have hdl : (block.drop u).length = u := by rw [List.length_drop, hlen]; omega
  have hta : fromLEBytes (block.take u) < 2 ^ (8 * u) := by
    have := fromLEBytes_lt (block.take u)
      (fun a ha => hbytes a (List.take_subset u block ha))
    rwa [htl] at this
  have htb : fromLEBytes (block.drop u) < 2 ^ (8 * u) := by
    have := fromLEBytes_lt (block.drop u)
      (fun a ha => hbytes a (List.drop_subset u block ha))
    rwa [hdl] at this
  unfold encrypt_block decrypt_block
  simp only
  rw [words_from_block_block_from_words u _ _
    (encrypt_words_fst_lt (8 * u) r key _) (encrypt_words_snd_lt (8 * u) r key _)]
  rw [decrypt_words_encrypt_words (8 * u) r key (words_from_block u block)
    (by omega) hta htb]
  unfold words_from_block block_from_words
  simp only
  have h1 : toLEBytes u (fromLEBytes (block.take u)) = block.take u := by
    have := toLEBytes_fromLEBytes (block.take u)
      (fun a ha => hbytes a (List.take_subset u block ha))
    rwa [htl] at this
  have h2 : toLEBytes u (fromLEBytes (block.drop u)) = block.drop u := by
    have := toLEBytes_fromLEBytes (block.drop u)
      (fun a ha => hbytes a (List.drop_subset u block ha))
    rwa [hdl] at this
  rw [h1, h2, List.take_append_drop]



theorem getD_eq_getElem (l : List Nat) (i : Nat) (h : i < l.length) :
    l.getD i 0 = l[i] := by
  rw [List.getD_eq_getElem?_getD, List.getElem?_eq_getElem h]
  rfl

theorem foldlM_enc_eq_some (w : Nat) (key : List Nat) :
    ∀ (l : List Nat), (∀ i ∈ l, 2 * i + 1 < key.length) →
    ∀ ab : Nat × Nat,
      (l.foldlM (fun ab i => do
        let s1 ← key[2 * i]?
        let s2 ← key[2 * i + 1]?
        pure (encRound w s1 s2 ab)) ab : Option (Nat × Nat)) =
      some (l.foldl
        (fun ab i => encRound w (key.getD (2 * i) 0) (key.getD (2 * i + 1) 0) ab) ab) := by
  intro l
  induction l with
  | nil => intro _ ab; rfl
  | cons x l ih =>
    intro h ab
    have h2 : 2 * x + 1 < key.length := h x (List.mem_cons_self _ _)
    have h1 : 2 * x < key.length := by omega
    rw [List.foldlM_cons, List.foldl_cons]
    simp only [List.getElem?_eq_getElem h1, List.getElem?_eq_getElem h2,
      Option.some_bind, pure]
    rw [getD_eq_getElem key _ h1, getD_eq_getElem key _ h2]
    exact ih (fun i hi => h i (List.mem_cons_of_mem _ hi)) _

theorem foldlM_dec_eq_some (w : Nat) (key : List Nat) :
    ∀ (l : List Nat), (∀ i ∈ l, 2 * i + 1 < key.length) →
    ∀ ab : Nat × Nat,
      (l.foldlM (fun ab i => do
        let s1 ← key[2 * i]?
        let s2 ← key[2 * i + 1]?
        pure (decRound w s1 s2 ab)) ab : Option (Nat × Nat)) =
      some (l.foldl
        (fun ab i => decRound w (key.getD (2 * i) 0) (key.getD (2 * i + 1) 0) ab) ab) := by
  intro l
  induction l with
  | nil => intro _ ab; rfl
  | cons x l ih =>
    intro h ab
    have h2 : 2 * x + 1 < key.length := h x (List.mem_cons_self _ _)
    have h1 : 2 * x < key.length := by omega
    rw [List.foldlM_cons, List.foldl_cons]
    simp only [List.getElem?_eq_getElem h1, List.getElem?_eq_getElem h2,
      Option.some_bind, pure]
    rw [getD_eq_getElem key _ h1, getD_eq_getElem key _ h2]
    exact ih (fun i hi => h i (List.mem_cons_of_mem _ hi)) _

theorem range'_bound (r : Nat) : ∀ i ∈ List.range' 1 r, 2 * i + 1 < 2 * (r + 1) := by
  intro i hi
  have := List.mem_range'_1.mp hi
  omega

theorem encrypt_words?_eq_some (w r : Nat) (key : List Nat) (ab : Nat × Nat)
    (hlen : key.length = 2 * (r + 1)) :
    encrypt_words? w r key ab = some (encrypt_words w r key ab) := by
  have h0 : 0 < key.length := by omega
  have h1 : 1 < key.length := by omega
  unfold encrypt_words? encrypt_words
  simp only [List.getElem?_eq_getElem h0, List.getElem?_eq_getElem h1, Option.some_bind]
  rw [getD_eq_getElem key 0 h0, getD_eq_getElem key 1 h1]
  exact foldlM_enc_eq_some w key (List.range' 1 r)
    (fun i hi => by rw [hlen]; exact range'_bound r i hi) _

theorem decrypt_words?_eq_some (w r : Nat) (key : List Nat) (ab : Nat × Nat)
    (hlen : key.length = 2 * (r + 1)) :
    decrypt_words? w r key ab = some (decrypt_words w r key ab) := by
  have h0 : 0 < key.length := by omega
  have h1 : 1 < key.length := by omega
  unfold decrypt_words? decrypt_words
  rw [foldlM_dec_eq_some w key (List.range' 1 r).reverse
    (fun i hi => by rw [hlen]; exact range'_bound r i (List.mem_reverse.mp hi)) ab]
  rw [getD_eq_getElem key 0 h0, getD_eq_getElem key 1 h1]
  simp only [List.getElem?_eq_getElem h0, List.getElem?_eq_getElem h1]
  rfl



/-- C1: for every key `K` of the configured length `b` and every block `X`
of `2u` bytes, decrypting the encryption of `X` under the table expanded
from `K` returns `X`:
`decrypt_block (encrypt_block X (substitute_key K)) (substitute_key K) = X`. -/
theorem c1_inverse_law (u r : Nat) (block key : List Nat)
    (hu : 0 < u) (hlen : block.length = 2 * u) (hbytes : ∀ a ∈ block, a < 256) :
    decrypt_block u r (encrypt_block u r block (substitute_key u r key))
      (substitute_key u r key) = block :=
  decrypt_block_encrypt_block u r block (substitute_key u r key) hu hlen hbytes

/-- Witness for C1 at the RC5-32/12/16 configuration with the all-zero key
and the all-zero block. -/
theorem c1_inverse_law_witness :
    decrypt_block 4 12
      (encrypt_block 4 12 (List.replicate 8 0)
        (substitute_key 4 12 (List.replicate 16 0)))
      (substitute_key 4 12 (List.replicate 16 0)) = List.replicate 8 0 :=
  c1_inverse_law 4 12 (List.replicate 8 0) (List.replicate 16 0)
    (by decide) (by decide) (by decide)

/-- C2: for the concrete configuration `w = 32`, `r = 12`, `b = 16`
(`impl_rc5! {w = u32, r = 12, b = 16}` in `src/core/consts.rs`), encrypting
the all-zero 8-byte block with the table expanded from the 16-zero-byte key
produces the published RC5-32/12/16 ciphertext `21 A5 DB EE 15 4B 8F 6D`. -/
theorem c2_test_vector :
    encrypt_block 4 12 (List.replicate 8 0)
      (substitute_key 4 12 (List.replicate 16 0)) =
    [0x21, 0xA5, 0xDB, 0xEE, 0x15, 0x4B, 0x8F, 0x6D] := by decide

/-- C9: with round count `r = 0` the round loop runs zero times, so
encryption is exactly the two wrapping whitening additions, decryption is
exactly the two corresponding wrapping subtractions, and decryption inverts
encryption. -/
theorem c9_zero_rounds (u : Nat) (block key : List Nat)
    (hu : 0 < u) (hlen : block.length = 2 * u) (hbytes : ∀ a ∈ block, a < 256) :
    encrypt_block u 0 block key =
      block_from_words u
        (wrappingAdd (8 * u) (fromLEBytes (block.take u)) (key.getD 0 0))
        (wrappingAdd (8 * u) (fromLEBytes (block.drop u)) (key.getD 1 0)) ∧
    decrypt_block u 0 block key =
      block_from_words u
        (wrappingSub (8 * u) (fromLEBytes (block.take u)) (key.getD 0 0))
        (wrappingSub (8 * u) (fromLEBytes (block.drop u)) (key.getD 1 0)) ∧
    decrypt_block u 0 (encrypt_block u 0 block key) key = block :=
  ⟨rfl, rfl, decrypt_block_encrypt_block u 0 block key hu hlen hbytes⟩

/-- Witness for C9 at `u = 1`, block `[3, 5]`, key table `[10, 20]`. -/
theorem c9_zero_rounds_witness :
    encrypt_block 1 0 [3, 5] [10, 20] =
      block_from_words 1
        (wrappingAdd 8 (fromLEBytes ([3, 5].take 1)) ([10, 20].getD 0 0))
        (wrappingAdd 8 (fromLEBytes ([3, 5].drop 1)) ([10, 20].getD 1 0)) ∧
    decrypt_block 1 0 [3, 5] [10, 20] =
      block_from_words 1
        (wrappingSub 8 (fromLEBytes ([3, 5].take 1)) ([10, 20].getD 0 0))
        (wrappingSub 8 (fromLEBytes ([3, 5].drop 1)) ([10, 20].getD 1 0)) ∧
    decrypt_block 1 0 (encrypt_block 1 0 [3, 5] [10, 20]) [10, 20] = [3, 5] :=
  c9_zero_rounds 1 [3, 5] [10, 20] (by decide) (by decide) (by decide)

/-- C10: for every table of the length `t = 2(r + 1)` prescribed by
`expanded_key_table::SIZE`, every table access of `encrypt_block` and
`decrypt_block` is in bounds: the Option models with panicking indexing
return `some` of the total translations. -/
theorem c10_no_out_of_bounds (u r : Nat) (block key : List Nat)
    (hlen : key.length = 2 * (r + 1)) :
    encrypt_block? u r block key = some (encrypt_block u r block key) ∧
    decrypt_block? u r block key = some (decrypt_block u r block key) := by
  constructor
  · simp only [encrypt_block?, encrypt_block]
    rw [encrypt_words?_eq_some (8 * u) r key _ hlen]
    rfl
  · simp only [decrypt_block?, decrypt_block]
    rw [decrypt_words?_eq_some (8 * u) r key _ hlen]
    rfl

/-- Witness for C10 at `u = 1`, `r = 0` (so `t = 2`). -/
theorem c10_no_out_of_bounds_witness :
    encrypt_block? 1 0 [3, 5] [10, 20] = some (encrypt_block 1 0 [3, 5] [10, 20]) ∧
    decrypt_block? 1 0 [3, 5] [10, 20] = some (decrypt_block 1 0 [3, 5] [10, 20]) :=
  c10_no_out_of_bounds 1 0 [3, 5] [10, 20] (by decide)



theorem foldl_enc_eq_specRounds (w : Nat) (S : List Nat) (start : Nat × Nat) :
    ∀ r : Nat,
      (List.range' 1 r).foldl
        (fun ab i => encRound w (S.getD (2 * i) 0) (S.getD (2 * i + 1) 0) ab)
        start =
      encSpecRounds w S start r := by
  intro r
  induction r with
  | zero => rfl
  | succ r ih =>
    rw [List.range'_concat, List.foldl_append, ih]
    simp only [List.foldl_cons, List.foldl_nil]
    have h : 1 + 1 * r = r + 1 := by omega
    rw [h]
    rfl

/-- C3: for every input block of `2u` bytes and every table, `encrypt_block`
decodes `(A, B)` little-endian with `A` from bytes `[0, u)` and `B` from
bytes `[u, 2u)`, whitens with `S[0]`, `S[1]` (wrapping), runs the rounds
`A = rotate_left(A xor B, B) + S[2i]`, `B = rotate_left(B xor A, A) + S[2i+1]`
for `i` in `1..=r`, and re-encodes little-endian — i.e. it coincides with
`encryptSpec`, the function written from the words of the claim. -/
theorem c3_encrypt_structure (u r : Nat) (block S : List Nat)
    (hlen : block.length = 2 * u) :
    encrypt_block u r block S = encryptSpec u r block S := by
  unfold encrypt_block encryptSpec words_from_block block_from_words encrypt_words
  simp only
  have hdrop : (block.drop u).take u = block.drop u := by
    apply List.take_of_length_le
    rw [List.length_drop, hlen]
    omega
  rw [hdrop, foldl_enc_eq_specRounds]

/-- Witness for C3 at `u = 1`, `r = 1`, a concrete block and table. -/
theorem c3_encrypt_structure_witness :
    encrypt_block 1 1 [3, 5] [10, 20, 30, 40] = encryptSpec 1 1 [3, 5] [10, 20, 30, 40] :=
  c3_encrypt_structure 1 1 [3, 5] [10, 20, 30, 40] (by decide)

theorem mixStep_keyTable_length (w : Nat) (st : MixState) :
    (mixStep w st).keyTable.length = st.keyTable.length := by
  simp [mixStep, List.length_set]

theorem mixStep_keyWords_length (w : Nat) (st : MixState) :
    (mixStep w st).keyWords.length = st.keyWords.length := by
  simp [mixStep, List.length_set]

theorem mixStep_eq_spec (w : Nat) (st : MixState) :
    mixStep w st = mixSpecStep w st.keyTable.length st.keyWords.length st := by
  unfold mixStep mixSpecStep
  simp only [List.length_set, rotateLeft_mod]

theorem foldl_mixStep_eq_iter (w t c : Nat) :
    ∀ (l : List Nat) (st : MixState),
      st.keyTable.length = t → st.keyWords.length = c →
      l.foldl (fun st _ => mixStep w st) st = mixSpecIter w t c l.length st := by
  intro l
  induction l with
  | nil => intro st _ _; rfl
  | cons x l ih =>
    intro st ht hc
    subst ht
    subst hc
    rw [List.foldl_cons]
    show _ = mixSpecIter w st.keyTable.length st.keyWords.length (l.length + 1) st
    have hstep : mixSpecIter w st.keyTable.length st.keyWords.length (l.length + 1) st =
        mixSpecIter w st.keyTable.length st.keyWords.length l.length
          (mixSpecStep w st.keyTable.length st.keyWords.length st) := rfl
    rw [hstep, ← mixStep_eq_spec]
    exact ih (mixStep w st) (mixStep_keyTable_length w st) (mixStep_keyWords_length w st)

/-- C5: the key-schedule mixing phase starts with `A = 0`, `B = 0`, both
cursors at `0`, runs exactly `3 * max(t, c)` iterations, and each iteration
updates `S[si]`, `A`, `L[li]`, `B` and the two cursors as the claim states —
i.e. `mix_in` coincides with `mixSpec`, the function written from the words
of the claim. -/
theorem c5_mixing_structure (w : Nat) (keyTable keyWords : List Nat) :
    mix_in w keyTable keyWords = mixSpec w keyTable keyWords := by
  unfold mix_in mixSpec
  rw [foldl_mixStep_eq_iter w keyTable.length keyWords.length
    (List.range (3 * max keyWords.length keyTable.length)) _ rfl rfl]
  rw [List.length_range, Nat.max_comm]

/-- C7: rotations are total over full-word rotation amounts: for every
`w`-bit word `x` and every amount `n` (also `n ≥ w`), `rotateLeft` and
`rotateRight` equal the rotation by `n mod w` and stay inside the `w`-bit
domain (no panic, no undefined result). -/
theorem c7_rotation_total (w x n : Nat) (hw : 0 < w) (hx : x < 2 ^ w) :
    rotateLeft w x n = rotateLeft w x (n % w) ∧
    rotateRight w x n = rotateRight w x (n % w) ∧
    rotateLeft w x n < 2 ^ w ∧ rotateRight w x n < 2 ^ w :=
  ⟨(rotateLeft_mod w x n).symm, (rotateRight_mod w x n).symm,
    rotateLeft_lt w x n hw hx, rotateRight_lt w x n hw hx⟩

/-- Witness for C7 at `w = 32`, `x = 5`, `n = 100` (an amount above `w`). -/
theorem c7_rotation_total_witness :
    rotateLeft 32 5 100 = rotateLeft 32 5 (100 % 32) ∧
    rotateRight 32 5 100 = rotateRight 32 5 (100 % 32) ∧
    rotateLeft 32 5 100 < 2 ^ 32 ∧ rotateRight 32 5 100 < 2 ^ 32 :=
  c7_rotation_total 32 5 100 (by decide) (by decide)

/-- C4 (code bug): for `b = 0` the size formula of `key_as_words::SIZE`
yields `c = 0`, not `c = 1`: `key_into_words` returns the empty word list,
and the `mix_in` loop then panics on its first iteration (out-of-bounds
index into `L` and cursor reduction modulo `0`), modelled by the Option
variant returning `none` for the concrete `w = 32`, `r = 12` table. -/
theorem c4_zero_key_empty_words (u : Nat) (hu : 0 < u) :
    key_as_words_size u 0 = 0 ∧
    key_into_words 4 [] = [] ∧
    mix_in? 32 (init_expanded_key_table 32 26) (key_into_words 4 []) = none := by
  refine ⟨?_, by decide, by decide⟩
  unfold key_as_words_size
  exact Nat.div_eq_of_lt (by omega)

/-- Witness for C4 at `u = 4` (the configured word size `w = 32`). -/
theorem c4_zero_key_empty_words_witness :
    key_as_words_size 4 0 = 0 ∧
    key_into_words 4 [] = [] ∧
    mix_in? 32 (init_expanded_key_table 32 26) (key_into_words 4 []) = none :=
  c4_zero_key_empty_words 4 (by decide)



theorem getD_set_self (l : List Nat) (i v : Nat) (h : i < l.length) :
    (l.set i v).getD i 0 = v := by
  rw [List.getD_eq_getElem?_getD, List.getElem?_set_self h]
  rfl

theorem getD_set_ne (l : List Nat) (i j v : Nat) (h : i ≠ j) :
    (l.set i v).getD j 0 = l.getD j 0 := by
  rw [List.getD_eq_getElem?_getD, List.getElem?_set_ne h, ← List.getD_eq_getElem?_getD]

theorem init_fold_length (w : Nat) :
    ∀ (l : List Nat) (tbl : List Nat),
      (l.foldl (fun tbl i => tbl.set i (wrappingAdd w (tbl.getD (i - 1) 0) (qConst w))) tbl).length =
      tbl.length := by
  intro l
  induction l with
  | nil => intro tbl; rfl
  | cons x l ih =>
    intro tbl
    rw [List.foldl_cons, ih, List.length_set]

theorem init_fold_spec (w t : Nat) (htpos : 0 < t) :
    ∀ k, k ≤ t - 1 →
      ((List.range' 1 k).foldl
        (fun tbl i => tbl.set i (wrappingAdd w (tbl.getD (i - 1) 0) (qConst w)))
        ((List.replicate t 0).set 0 (pConst w))).getD 0 0 = pConst w ∧
      (∀ i, 1 ≤ i → i ≤ k →
        ((List.range' 1 k).foldl
          (fun tbl i => tbl.set i (wrappingAdd w (tbl.getD (i - 1) 0) (qConst w)))
          ((List.replicate t 0).set 0 (pConst w))).getD i 0 =
        wrappingAdd w
          (((List.range' 1 k).foldl
            (fun tbl i => tbl.set i (wrappingAdd w (tbl.getD (i - 1) 0) (qConst w)))
            ((List.replicate t 0).set 0 (pConst w))).getD (i - 1) 0)
          (qConst w)) := by
  intro k
  induction k with
  | zero =>
    intro ht
    constructor
    · exact getD_set_self (List.replicate t 0) 0 (pConst w)
        (by rw [List.length_replicate]; omega)
    · intro i h1 h2; omega
  | succ k ih =>
    intro ht
    have hk : k ≤ t - 1 := by omega
    obtain ⟨ih0, ihs⟩ := ih hk
    have hlen : ((List.range' 1 k).foldl
        (fun tbl i => tbl.set i (wrappingAdd w (tbl.getD (i - 1) 0) (qConst w)))
        ((List.replicate t 0).set 0 (pConst w))).length = t := by
      rw [init_fold_length, List.length_set, List.length_replicate]
    rw [List.range'_concat, List.foldl_append]
    simp only [List.foldl_cons, List.foldl_nil]
    have harr : 1 + 1 * k = k + 1 := by omega
    rw [harr]
    set T := (List.range' 1 k).foldl
      (fun tbl i => tbl.set i (wrappingAdd w (tbl.getD (i - 1) 0) (qConst w)))
      ((List.replicate t 0).set 0 (pConst w)) with hT
    constructor
    · rw [getD_set_ne T (k + 1) 0 _ (by omega)]
      exact ih0
    · intro i h1 h2
      rcases Nat.lt_or_ge i (k + 1) with hlt | hge
      · have hik : i ≤ k := by omega
        rw [getD_set_ne T (k + 1) i _ (by omega),
          getD_set_ne T (k + 1) (i - 1) _ (by omega)]
        exact ihs i h1 hik
      · have hik : i = k + 1 := by omega
        subst hik
        rw [getD_set_self T (k + 1) _ (by rw [hlen]; omega)]
        rw [getD_set_ne T (k + 1) (k + 1 - 1) _ (by omega)]

/-- C6: `init_expanded_key_table` produces exactly `t = 2(r + 1)` words
with `S[0] = P` and `S[i] = S[i-1] + Q` (wrapping) for every `1 ≤ i < t`,
independently of the key, and for `w = 32` the constants are
`P = 0xb7e15163` and `Q = 0x9e3779b9`. -/
theorem c6_table_init (w r : Nat) :
    (init_expanded_key_table w (2 * (r + 1))).length = 2 * (r + 1) ∧
    (init_expanded_key_table w (2 * (r + 1))).getD 0 0 = pConst w ∧
    (∀ i, 0 < i → i < 2 * (r + 1) →
      (init_expanded_key_table w (2 * (r + 1))).getD i 0 =
      wrappingAdd w
        ((init_expanded_key_table w (2 * (r + 1))).getD (i - 1) 0) (qConst w)) ∧
    pConst 32 = 0xb7e15163 ∧ qConst 32 = 0x9e3779b9 := by
  have hspec := init_fold_spec w (2 * (r + 1)) (by omega) (2 * (r + 1) - 1) (le_refl _)
  refine ⟨?_, hspec.1, ?_, rfl, rfl⟩
  · unfold init_expanded_key_table
    rw [init_fold_length, List.length_set, List.length_replicate]
  · intro i h1 h2
    exact hspec.2 i h1 (by omega)

/-- Witness for C6 at the concrete configuration `w = 32`, `r = 12`,
extracting the recurrence at `i = 5`. -/
theorem c6_table_init_witness :
    (init_expanded_key_table 32 (2 * (12 + 1))).getD 5 0 =
    wrappingAdd 32 ((init_expanded_key_table 32 (2 * (12 + 1))).getD 4 0) (qConst 32) :=
  (c6_table_init 32 12).2.2.1 5 (by decide) (by decide)



theorem word_index_lt (u b j : Nat) (hu : 0 < u) (hj : j < key_as_words_size u b) :
    j * u < b := by
  unfold key_as_words_size at hj
  have h1 : (j + 1) * u ≤ (b + u - 1) / u * u := Nat.mul_le_mul_right u hj
  have h2 : (b + u - 1) / u * u ≤ b + u - 1 := Nat.div_mul_le_self _ _
  rw [Nat.succ_mul] at h1
  omega

theorem div_index_lt (u b k : Nat) (hu : 0 < u) (hk : k < b) :
    k / u < key_as_words_size u b := by
  unfold key_as_words_size
  rw [Nat.lt_iff_add_one_le, Nat.le_div_iff_mul_le hu, Nat.succ_mul]
  have h1 : k / u * u ≤ k := Nat.div_mul_le_self k u
  omega

theorem packedWords_length (u k : Nat) (key : List Nat) :
    (packedWords u k key).length = key_as_words_size u key.length := by
  unfold packedWords
  rw [List.length_map, List.length_range]

theorem packedWords_getElem (u k : Nat) (key : List Nat) (j : Nat)
    (hj : j < (packedWords u k key).length) :
    (packedWords u k key)[j] =
    fromLEBytes ((key.drop (max k (j * u))).take
      (min key.length (j * u + u) - max k (j * u))) := by
  unfold packedWords
  rw [List.getElem_map, List.getElem_range]

theorem rotateLeft_eight (u v : Nat) (hu : 0 < u) (hv : v < 2 ^ (8 * u - 8)) :
    rotateLeft (8 * u) v 8 = 256 * v := by
  rcases Nat.lt_or_ge u 2 with h1 | h2
  · have hu1 : u = 1 := by omega
    subst hu1
    have hv0 : v = 0 := by
      have : (2 : Nat) ^ (8 * 1 - 8) = 1 := by norm_num
      omega
    subst hv0
    decide
  · unfold rotateLeft
    have hw : 8 % (8 * u) = 8 := Nat.mod_eq_of_lt (by omega)
    rw [hw]
    have hmul : v * 2 ^ 8 < 2 ^ (8 * u) := by
      have hp : 2 ^ (8 * u - 8) * 2 ^ 8 = 2 ^ (8 * u) := by
        rw [← pow_add]; congr 1; omega
      calc v * 2 ^ 8 < 2 ^ (8 * u - 8) * 2 ^ 8 :=
            (Nat.mul_lt_mul_right (by norm_num : (0:Nat) < 2 ^ 8)).mpr hv
        _ = 2 ^ (8 * u) := hp
    rw [Nat.mod_eq_of_lt hmul]
    have hdiv : v / 2 ^ (8 * u - 8) = 0 := Nat.div_eq_of_lt hv
    rw [hdiv, Nat.add_zero]
    have h256 : (2 : Nat) ^ 8 = 256 := by norm_num
    rw [h256, Nat.mul_comm]

theorem packed_cur_lt (u : Nat) (key : List Nat) (hu : 0 < u)
    (hbytes : ∀ a ∈ key, a < 256) (k : Nat) (hk : k < key.length) :
    (packedWords u (k + 1) key).getD (k / u) 0 < 2 ^ (8 * u - 8) := by
  have hj : k / u < (packedWords u (k + 1) key).length := by
    rw [packedWords_length]
    exact div_index_lt u key.length k hu hk
  rw [List.getD_eq_getElem?_getD, List.getElem?_eq_getElem hj]
  show (packedWords u (k + 1) key)[k / u] < 2 ^ (8 * u - 8)
  rw [packedWords_getElem u (k + 1) key (k / u) hj]
  set lst := (key.drop (max (k + 1) (k / u * u))).take
    (min key.length (k / u * u + u) - max (k + 1) (k / u * u)) with hlst
  have hmem : ∀ a ∈ lst, a < 256 := by
    intro a ha
    exact hbytes a (List.drop_subset _ key (List.take_subset _ _ ha))
  have hlen : lst.length ≤ u - 1 := by
    rw [hlst, List.length_take, List.length_drop]
    have hdm : k / u * u + k % u = k := Nat.div_add_mod' k u
    have hmod : k % u < u := Nat.mod_lt _ hu
    omega
  calc fromLEBytes lst < 2 ^ (8 * lst.length) := fromLEBytes_lt lst hmem
    _ ≤ 2 ^ (8 * u - 8) := Nat.pow_le_pow_right (by norm_num) (by omega)



theorem packed_step (u : Nat) (key : List Nat) (hu : 0 < u)
    (hbytes : ∀ a ∈ key, a < 256) (k : Nat) (hk : k < key.length) :
    (packedWords u (k + 1) key).set (k / u)
      (rotateLeft (8 * u) ((packedWords u (k + 1) key).getD (k / u) 0) 8 +
        key.getD k 0) =
    packedWords u k key := by
  have hdm : k / u * u + k % u = k := Nat.div_add_mod' k u
  have hmod : k % u < u := Nat.mod_lt _ hu
  have hc : k / u < key_as_words_size u key.length := div_index_lt u key.length k hu hk
  apply List.ext_getElem
  · rw [List.length_set, packedWords_length, packedWords_length]
  · intro j hj1 hj2
    have hjp1 : j < (packedWords u (k + 1) key).length := by
      rw [packedWords_length]
      rw [packedWords_length] at hj2
      exact hj2
    rw [List.getElem_set, packedWords_getElem u k key j hj2]
    by_cases hcase : k / u = j
    · rw [if_pos hcase]
      subst hcase
      rw [rotateLeft_eight u _ hu (packed_cur_lt u key hu hbytes k hk)]
      rw [List.getD_eq_getElem?_getD, List.getElem?_eq_getElem hjp1, Option.getD_some]
      rw [packedWords_getElem u (k + 1) key (k / u) hjp1]
      rw [getD_eq_getElem key k hk]
      have hmax1 : max k (k / u * u) = k := by omega
      have hmax2 : max (k + 1) (k / u * u) = k + 1 := by omega
      rw [hmax1, hmax2]
      rw [List.drop_eq_getElem_cons hk]
      have hsucc : min key.length (k / u * u + u) - k =
          (min key.length (k / u * u + u) - (k + 1)) + 1 := by omega
      rw [hsucc, List.take_succ_cons]
      simp only [fromLEBytes]
      omega
    · rw [if_neg hcase]
      rw [packedWords_getElem u (k + 1) key j hjp1]
      rcases Nat.lt_or_ge j (k / u) with hlt | hge
      · have h1 : (j + 1) * u ≤ k / u * u := Nat.mul_le_mul_right u hlt
        rw [Nat.succ_mul] at h1
        have e1 : min key.length (j * u + u) - max (k + 1) (j * u) = 0 := by omega
        have e2 : min key.length (j * u + u) - max k (j * u) = 0 := by omega
        rw [e1, e2, List.take_zero, List.take_zero]
      · have hgt : k / u + 1 ≤ j := by omega
        have h1 : (k / u + 1) * u ≤ j * u := Nat.mul_le_mul_right u hgt
        rw [Nat.succ_mul] at h1
        have e1 : max (k + 1) (j * u) = max k (j * u) := by omega
        rw [e1]

theorem packed_init (u : Nat) (key : List Nat) (hu : 0 < u) :
    packedWords u key.length key =
    List.replicate (key_as_words_size u key.length) 0 := by
  apply List.ext_getElem
  · rw [packedWords_length, List.length_replicate]
  · intro j hj1 hj2
    rw [List.getElem_replicate, packedWords_getElem u key.length key j hj1]
    have hjb : j * u < key.length := word_index_lt u key.length j hu
      (by rw [packedWords_length] at hj1; exact hj1)
    have e : min key.length (j * u + u) - max key.length (j * u) = 0 := by omega
    rw [e, List.take_zero]
    rfl

theorem key_fold_eq_packed (u : Nat) (key : List Nat) (hu : 0 < u)
    (hbytes : ∀ a ∈ key, a < 256) :
    ∀ k, k ≤ key.length →
      (List.range k).reverse.foldl
        (fun L i => L.set (i / u) (rotateLeft (8 * u) (L.getD (i / u) 0) 8 + key.getD i 0))
        (packedWords u k key) =
      packedWords u 0 key := by
  intro k
  induction k with
  | zero => intro _; rfl
  | succ k ih =>
    intro hk
    simp only [List.range_succ, List.reverse_append, List.reverse_singleton,
      List.singleton_append, List.foldl_cons]
    rw [packed_step u key hu hbytes k (by omega)]
    exact ih (by omega)

theorem packed_step_some (u : Nat) (key : List Nat) (hu : 0 < u)
    (hbytes : ∀ a ∈ key, a < 256) (k : Nat) (hk : k < key.length) :
    (do
      let cur ← (packedWords u (k + 1) key)[k / u]?
      let byte ← key[k]?
      let v := rotateLeft (8 * u) cur 8 + byte
      if v < 2 ^ (8 * u) then pure ((packedWords u (k + 1) key).set (k / u) v)
      else none : Option (List Nat)) = some (packedWords u k key) := by
  have hjlt : k / u < (packedWords u (k + 1) key).length := by
    rw [packedWords_length]
    exact div_index_lt u key.length k hu hk
  rw [List.getElem?_eq_getElem hjlt, List.getElem?_eq_getElem hk]
  have hgetd : (packedWords u (k + 1) key).getD (k / u) 0 =
      (packedWords u (k + 1) key)[k / u] := by
    rw [List.getD_eq_getElem?_getD, List.getElem?_eq_getElem hjlt, Option.getD_some]
  have hcur : (packedWords u (k + 1) key)[k / u] < 2 ^ (8 * u - 8) := by
    rw [← hgetd]
    exact packed_cur_lt u key hu hbytes k hk
  have hguard : rotateLeft (8 * u) ((packedWords u (k + 1) key)[k / u]) 8 + key[k] <
      2 ^ (8 * u) := by
    rw [rotateLeft_eight u _ hu hcur]
    have h28 : 256 * 2 ^ (8 * u - 8) = 2 ^ (8 * u) := by
      rw [show (256 : Nat) = 2 ^ 8 from rfl, ← pow_add]
      congr 1
      omega
    have hb : key[k] < 256 := hbytes _ (List.getElem_mem hk)
    have h2 : 256 * ((packedWords u (k + 1) key)[k / u] + 1) ≤
        256 * 2 ^ (8 * u - 8) :=
      Nat.mul_le_mul_left 256 (Nat.succ_le_of_lt hcur)
    omega
  show (if rotateLeft (8 * u) ((packedWords u (k + 1) key)[k / u]) 8 + key[k] <
      2 ^ (8 * u) then
      pure ((packedWords u (k + 1) key).set (k / u)
        (rotateLeft (8 * u) ((packedWords u (k + 1) key)[k / u]) 8 + key[k]))
    else none : Option (List Nat)) = some (packedWords u k key)
  rw [if_pos hguard, ← hgetd, ← getD_eq_getElem key k hk]
  exact congrArg some (packed_step u key hu hbytes k hk)

theorem key_fold_some (u : Nat) (key : List Nat) (hu : 0 < u)
    (hbytes : ∀ a ∈ key, a < 256) :
    ∀ k, k ≤ key.length →
      ((List.range k).reverse.foldlM
        (fun L i => do
          let cur ← L[i / u]?
          let byte ← key[i]?
          let v := rotateLeft (8 * u) cur 8 + byte
          if v < 2 ^ (8 * u) then pure (L.set (i / u) v) else none)
        (packedWords u k key) : Option (List Nat)) =
      some (packedWords u 0 key) := by
  intro k
  induction k with
  | zero => intro _; rfl
  | succ k ih =>
    intro hk
    simp only [List.range_succ, List.reverse_append, List.reverse_singleton,
      List.singleton_append, List.foldlM_cons]
    rw [packed_step_some u key hu hbytes k (by omega)]
    exact ih (by omega)

/-- C8: for every `b`-byte key, `key_into_words` returns
`c = ceil(b/u) = (b + u - 1)/u` words equal to the little-endian packing of
the key bytes with zero padding, and the plain (non-wrapping) addition of
the packing loop never overflows: the Option model with the overflow guard
returns `some` of the total translation. -/
theorem c8_key_into_words (u : Nat) (key : List Nat) (hu : 0 < u)
    (hbytes : ∀ a ∈ key, a < 256) :
    key_into_words? u key = some (key_into_words u key) ∧
    (key_into_words u key).length = key_as_words_size u key.length ∧
    (∀ j, j < key_as_words_size u key.length →
      (key_into_words u key).getD j 0 = fromLEBytes ((key.drop (j * u)).take u)) := by
  have hmain : key_into_words u key = packedWords u 0 key := by
    unfold key_into_words
    rw [← packed_init u key hu]
    exact key_fold_eq_packed u key hu hbytes key.length (le_refl _)
  refine ⟨?_, ?_, ?_⟩
  · unfold key_into_words?
    rw [← packed_init u key hu, hmain]
    exact key_fold_some u key hu hbytes key.length (le_refl _)
  · rw [hmain, packedWords_length]
  · intro j hj
    rw [hmain]
    have hjl : j < (packedWords u 0 key).length := by
      rw [packedWords_length]
      exact hj
    rw [List.getD_eq_getElem?_getD, List.getElem?_eq_getElem hjl, Option.getD_some,
      packedWords_getElem u 0 key j hjl]
    have hjb : j * u < key.length := word_index_lt u key.length j hu hj
    have hm : max 0 (j * u) = j * u := by omega
    rw [hm]
    congr 1
    apply List.take_eq_take.mpr
    rw [List.length_drop]
    omega

/-- Witness for C8 at `u = 4` with a concrete 5-byte key. -/
theorem c8_key_into_words_witness :
    key_into_words? 4 [1, 2, 3, 4, 5] = some (key_into_words 4 [1, 2, 3, 4, 5]) ∧
    (key_into_words 4 [1, 2, 3, 4, 5]).length =
      key_as_words_size 4 (List.length [1, 2, 3, 4, 5]) ∧
    (∀ j, j < key_as_words_size 4 (List.length [1, 2, 3, 4, 5]) →
      (key_into_words 4 [1, 2, 3, 4, 5]).getD j 0 =
      fromLEBytes (([1, 2, 3, 4, 5].drop (j * 4)).take 4)) :=
  c8_key_into_words 4 [1, 2, 3, 4, 5] (by decide) (by decide)


end RC5
